import Mathlib

/-!
Verification of the CSS parser of the repository `itskass/go-css`
(single source file `parser.go`).

The Go code is shallowly embedded as follows.

* `tokenType`, `newTokenType`, `TokenEntry.typ` mirror the token classifier.
* The tokenizer (`newTokenizer` / `tokenizer.next` / `buildList` / `Tokenize`)
  is built on Go's `text/scanner` configured with `GoTokens` mode and
  `GoWhitespace`, with a custom `IsIdentRune` installed after every produced
  token.  `tokNext` models one `tokenizer.next` call: whitespace skipping,
  identifier scanning under the three ident-rune regimes (the scanner's
  default rule before the first token, the "no spaces" rule, the "spaces
  allowed" rule installed after a `:`), digit runs for the number branch,
  comment skipping for `/`-initial input, the `.`-float lookahead, and a
  single-character token otherwise.  Letters and digits are modelled at
  ASCII granularity (`Char.isAlpha`/`Char.isDigit` for `unicode.IsLetter`/
  `unicode.IsDigit`); Go string/char/raw-string literal scanning (reachable
  only when the very first token of the input starts with a quote) is not
  modelled -- no statement below tokenizes such input.  The `line` carried by
  a token models `scanner.Position.Line` of `s.Pos()` after the token, i.e.
  one plus the number of newlines strictly before the end of the token;
  `parse` reads exactly this field.  Fuel arguments bound the comment-redo
  loop and the token collection loop; input length plus one always suffices.
* Go's `map[string]string` and `map[Rule]map[string]string` are modelled as
  association lists (`Smap`, `CssMap`) with Go's assignment semantics
  (`smapInsert`, `cssInsert`: replace in place, else append).  List order is
  a representation artifact; Go map iteration order never influences the
  final key/value content here because merged maps have pairwise distinct
  keys.
* `parse` mirrors the state machine: the same state variables, the same
  previous-token dispatch, the same error messages and line numbers, and the
  destructive front-to-back consumption of the token list.  The one Go
  feature needing care is that at `tokenBlockEnd` every selector in `rule`
  is assigned the *same mutable* `styles` map, which later loop iterations
  may extend; the final content of every assigned entry is therefore the
  loop's final `styles`.  `blockEndCss` replays the per-iteration reads and
  merges (`blockEndPhase`) and then assigns the final merged map to every
  selector of `rule`, which yields exactly the observable content of the Go
  map: a read of an entry assigned earlier in the same loop returns a map
  whose bindings are all already present in the current `styles`, so its
  merge is a no-op in both Go and this model.
-/

inductive tokenType where
  | tokenFirstToken
  | tokenBlockStart
  | tokenBlockEnd
  | tokenRuleName
  | tokenValue
  | tokenSelector
  | tokenStyleSeparator
  | tokenStatementEnd
deriving DecidableEq, Repr

/-- Models `newTokenType` of parser.go: pure classification of a token's
literal text. -/
def newTokenType (typ : String) : tokenType :=
  if typ = "\x7b" then .tokenBlockStart
  else if typ = "\x7d" then .tokenBlockEnd
  else if typ = ":" then .tokenStyleSeparator
  else if typ = ";" then .tokenStatementEnd
  else if typ = "." ∨ typ = "#" then .tokenSelector
  else .tokenValue

/-- Models the `TokenEntry` struct; of `scanner.Position` only the `Line`
field is kept, because `parse` reads nothing else. -/
structure TokenEntry where
  value : String
  line : Nat
deriving DecidableEq, Repr

/-- Models `TokenEntry.typ()`. -/
def TokenEntry.typ (e : TokenEntry) : tokenType :=
  newTokenType e.value

/-- The three ident-rune regimes of the tokenizer: `goDefault` is
`text/scanner`'s built-in rule (in force until the first token has been
produced), `strict` is the "other tokens can't contain spaces" closure, and
`relaxed` is the "property value can contain spaces" closure installed right
after a `:` token. -/
inductive IdentMode where
  | goDefault
  | strict
  | relaxed
deriving DecidableEq, Repr

/-- Models `IsIdentRune` under the three regimes (ASCII granularity; the Go
EOF sentinel `ch == -1` is handled structurally by list exhaustion). -/
def identRune (m : IdentMode) (c : Char) (i : Nat) : Bool :=
  match m with
  | .goDefault => c == '_' || c.isAlpha || (c.isDigit && decide (0 < i))
  | .strict =>
      !(c == '.' || c == '#' || c == '\n' || c == ' ' || c == '\t' || c == ':' || c == ';')
  | .relaxed => !(c == '\n' || c == '\t' || c == ':' || c == ';')

/-- Go `scanner.GoWhitespace`: blank, tab, newline, carriage return. -/
def isWhitespaceCh (c : Char) : Bool :=
  c == ' ' || c == '\t' || c == '\n' || c == '\r'

/-- Whitespace skipping done at the start of every `Scan`, counting consumed
newlines. -/
def skipWs : List Char → Nat → List Char × Nat
  | [], nl => ([], nl)
  | c :: cs, nl =>
    if isWhitespaceCh c then skipWs cs (if c == '\n' then nl + 1 else nl)
    else (c :: cs, nl)

/-- Skipping of a `//` line comment (the terminating newline is left for the
next whitespace skip, which also counts it). -/
def dropLineComment : List Char → List Char
  | [] => []
  | c :: cs => if c == '\n' then c :: cs else dropLineComment cs

/-- Skipping of a `/* ... */` comment body, counting internal newlines. -/
def dropBlockComment : List Char → Nat → List Char × Nat
  | [], nl => ([], nl)
  | '*' :: '/' :: cs, nl => (cs, nl)
  | '\n' :: cs, nl => dropBlockComment cs (nl + 1)
  | _ :: cs, nl => dropBlockComment cs nl

/-- The ident-rune regime installed by `tokenizer.next` after producing a
token with the given text (parser.go lines 66-80). -/
def modeAfter (text : String) : IdentMode :=
  if newTokenType text = .tokenStyleSeparator then .relaxed else .strict

/-- Tokenizer state: remaining input, ident-rune regime currently installed,
newlines consumed so far. -/
structure TokState where
  src : List Char
  mode : IdentMode
  nl : Nat
deriving DecidableEq, Repr

/-- One `tokenizer.next` call.  The fuel only feeds the comment-skipping
redo loop of `Scan`; any fuel above the number of leading comments (in
particular input length + 1) gives the same result. -/
def tokNext : Nat → TokState → Option (TokenEntry × TokState)
  | 0, _ => none
  | fuel + 1, ts =>
    let p := skipWs ts.src ts.nl
    match p.1 with
    | [] => none
    | c :: cs =>
      if identRune ts.mode c 0 then
        let q := cs.span (fun ch => identRune ts.mode ch 1)
        let text := String.mk (c :: q.1)
        some (⟨text, p.2 + 1⟩, ⟨q.2, modeAfter text, p.2⟩)
      else if c.isDigit then
        let q := cs.span Char.isDigit
        let text := String.mk (c :: q.1)
        some (⟨text, p.2 + 1⟩, ⟨q.2, modeAfter text, p.2⟩)
      else if c == '/' then
        match cs with
        | '/' :: cs2 => tokNext fuel ⟨dropLineComment cs2, ts.mode, p.2⟩
        | '*' :: cs2 =>
          let r := dropBlockComment cs2 p.2
          tokNext fuel ⟨r.1, ts.mode, r.2⟩
        | _ => some (⟨"/", p.2 + 1⟩, ⟨cs, modeAfter "/", p.2⟩)
      else if c == '.' then
        match cs with
        | d :: ds =>
          if d.isDigit then
            let q := ds.span Char.isDigit
            let text := String.mk (c :: d :: q.1)
            some (⟨text, p.2 + 1⟩, ⟨q.2, modeAfter text, p.2⟩)
          else some (⟨".", p.2 + 1⟩, ⟨cs, modeAfter ".", p.2⟩)
        | [] => some (⟨".", p.2 + 1⟩, ⟨cs, modeAfter ".", p.2⟩)
      else
        some (⟨String.mk [c], p.2 + 1⟩, ⟨cs, modeAfter (String.mk [c]), p.2⟩)

/-- The token-collection loop of `buildList`: call `next` until it reports
end of input.  The fuel bounds the number of tokens; input length + 1 always
suffices because every produced token consumes at least one character. -/
def buildTokens : Nat → TokState → List TokenEntry
  | 0, _ => []
  | fuel + 1, ts =>
    match tokNext (ts.src.length + 1) ts with
    | none => []
    | some (t, ts2) => t :: buildTokens fuel ts2

/-- Initial tokenizer state of `newTokenizer`: no custom `IsIdentRune` yet
(the scanner default is in force), no input consumed. -/
def initTokState (s : String) : TokState :=
  ⟨s.data, .goDefault, 0⟩

/-- Models `Tokenize` (via `buildList`): the ordered token list of the raw
input.  Go's `container/list` is modelled as a Lean list. -/
def Tokenize (s : String) : List TokenEntry :=
  buildTokens (s.data.length + 1) (initTokState s)

/-- `map[string]string` as an association list. -/
abbrev Smap := List (String × String)

/-- `map[Rule]map[string]string` as an association list keyed by the rule
string. -/
abbrev CssMap := List (String × Smap)

/-- Key-membership test of a Go string map. -/
def smapContains (m : Smap) (k : String) : Bool :=
  m.any (fun p => p.1 == k)

/-- Go map assignment `m[k] = v`: replace the binding in place if the key is
present, otherwise add it. -/
def smapInsert : Smap → String → String → Smap
  | [], k, v => [(k, v)]
  | p :: rest, k, v =>
    if p.1 == k then (k, v) :: rest else p :: smapInsert rest k v

/-- Lookup in the rule map (`css[r]` with its presence bit). -/
def cssLookup : CssMap → String → Option Smap
  | [], _ => none
  | p :: rest, k => if p.1 == k then some p.2 else cssLookup rest k

/-- Go map assignment on the rule map. -/
def cssInsert : CssMap → String → Smap → CssMap
  | [], k, v => [(k, v)]
  | p :: rest, k, v =>
    if p.1 == k then (k, v) :: rest else p :: cssInsert rest k v

/-- The merge of parser.go lines 201-205: copy each binding of the old entry
into `styles` only if its key is absent there (current block wins).  The old
entry has pairwise distinct keys, so the content of the result does not
depend on Go's map iteration order. -/
def mergeOldInto (styles old : Smap) : Smap :=
  old.foldl (fun acc p => if smapContains acc p.1 then acc else acc ++ [p]) styles

/-- The `for i := range rule` loop at `tokenBlockEnd` (lines 197-209),
replayed read-for-read: each selector's current entry (as updated so far in
this very loop) is merged into `styles`, and the selector is pointed at
`styles`. -/
def blockEndPhase : List String → CssMap → Smap → CssMap × Smap
  | [], css, styles => (css, styles)
  | r :: rs, css, styles =>
    let st2 :=
      match cssLookup css r with
      | some old => mergeOldInto styles old
      | none => styles
    blockEndPhase rs (cssInsert css r st2) st2

/-- Observable result of the `tokenBlockEnd` loop.  In Go every selector in
`rule` ends up holding the one shared `styles` map in its final state, so
after replaying the loop every selector of `rule` is assigned the final
merged map. -/
def blockEndCss (rule : List String) (css : CssMap) (styles : Smap) : CssMap :=
  let p := blockEndPhase rule css styles
  rule.foldl (fun c r => cssInsert c r p.2) p.1

/-- The parse error: 1-based line of the offending token plus the fixed
message (Go renders it as `line %d: <msg>`). -/
structure ParseErr where
  line : Nat
  msg : String
deriving DecidableEq, Repr

/-- The state variables of `parse` carried across loop iterations. -/
structure ParseState where
  rule : List String
  style : String
  value : String
  selector : String
  isBlock : Bool
  css : CssMap
  styles : Smap
  prevToken : tokenType
deriving Repr

/-- One iteration of the `parse` loop on the current token: the switch on
`token.typ()` guarded by `prevToken`, with `prevToken` updated afterwards.
`tokenStyleSeparator` (and the unused `tokenRuleName`/`tokenFirstToken`
categories) have no case in the Go switch and only update `prevToken`. -/
def parseStep (st : ParseState) (t : TokenEntry) : Except ParseErr ParseState :=
  match t.typ with
  | .tokenValue =>
    match st.prevToken with
    | .tokenFirstToken =>
        .ok { st with rule := st.rule ++ [t.value], prevToken := t.typ }
    | .tokenBlockEnd =>
        .ok { st with rule := st.rule ++ [t.value], prevToken := t.typ }
    | .tokenSelector =>
        .ok { st with rule := st.rule ++ [st.selector ++ t.value], prevToken := t.typ }
    | .tokenBlockStart => .ok { st with style := t.value, prevToken := t.typ }
    | .tokenStatementEnd => .ok { st with style := t.value, prevToken := t.typ }
    | .tokenStyleSeparator => .ok { st with value := t.value, prevToken := t.typ }
    | .tokenValue =>
        .ok { st with rule := st.rule ++ [t.value], prevToken := t.typ }
    | _ => .error ⟨t.line, "invalid syntax"⟩
  | .tokenSelector => .ok { st with selector := t.value, prevToken := t.typ }
  | .tokenBlockStart =>
    if st.prevToken = .tokenValue then
      .ok { st with isBlock := true, prevToken := t.typ }
    else .error ⟨t.line, "block is missing rule identifier"⟩
  | .tokenStatementEnd =>
    if st.prevToken = .tokenValue ∧ st.style ≠ "" ∧ st.value ≠ "" then
      .ok { st with styles := smapInsert st.styles st.style st.value, prevToken := t.typ }
    else .error ⟨t.line, "expected style before semicolon"⟩
  | .tokenBlockEnd =>
    if st.isBlock then
      .ok { st with
              css := blockEndCss st.rule st.css st.styles,
              styles := [], style := "", value := "", isBlock := false,
              prevToken := t.typ }
    else .error ⟨t.line, "rule block ends without a beginning"⟩
  | _ => .ok { st with prevToken := t.typ }

/-- The `parse` loop: consume tokens from the front; on error return the
partially built map together with the error, exactly as the Go function
returns `css, fmt.Errorf(...)`. -/
def parseFrom : ParseState → List TokenEntry → CssMap × Option ParseErr
  | st, [] => (st.css, none)
  | st, t :: rest =>
    match parseStep st t with
    | .ok st2 => parseFrom st2 rest
    | .error e => (st.css, some e)

/-- The initial state of `parse`. -/
def initParseState : ParseState :=
  ⟨[], "", "", "", false, [], [], .tokenFirstToken⟩

/-- Models `parse`. -/
def parse (l : List TokenEntry) : CssMap × Option ParseErr :=
  parseFrom initParseState l

/-- Models `Unmarshal` (`parse` of `Tokenize`); the byte slice is a string. -/
def Unmarshal (s : String) : CssMap × Option ParseErr :=
  parse (Tokenize s)

/-- `type Rule string`. -/
abbrev Rule := String

/-- Models `strings.HasPrefix`. -/
def hasPfx (s pre : String) : Bool :=
  pre.data.isPrefixOf s.data

/-- Models `Rule.Type()` (named `type` because `Type` is reserved in Lean):
leading `.` is a class, leading `#` an id, anything else a tag. -/
def Rule.type (rule : Rule) : String :=
  if hasPfx rule "." then "class"
  else if hasPfx rule "#" then "id"
  else "tag"

/-- The state of the `Rules` traversal. -/
structure RulesState where
  selector : String
  rule : List String
  rules : List Rule
  prevToken : tokenType
deriving Repr

/-- One iteration of the `Rules` loop (parser.go lines 250-271).  Note the
source sets `selector = "."` on every selector-prefix token, whatever its
text. -/
def rulesStep (rs : RulesState) (t : TokenEntry) : RulesState :=
  let rs2 :=
    match t.typ with
    | .tokenValue =>
      match rs.prevToken with
      | .tokenBlockEnd => { rs with rule := rs.rule ++ [t.value] }
      | .tokenFirstToken => { rs with rule := rs.rule ++ [t.value] }
      | .tokenValue => { rs with rule := rs.rule ++ [t.value] }
      | .tokenSelector => { rs with rule := rs.rule ++ [rs.selector ++ t.value] }
      | _ => rs
    | .tokenSelector => { rs with selector := "." }
    | .tokenBlockStart =>
      { rs with rules := rs.rules ++ [String.intercalate " " rs.rule], rule := [] }
    | _ => rs
  { rs2 with prevToken := t.typ }

/-- The loop of `Rules`: non-destructive traversal of the token list. -/
def rulesLoop : RulesState → List TokenEntry → List Rule
  | rs, [] => rs.rules
  | rs, t :: rest => rulesLoop (rulesStep rs t) rest

/-- Models `Rules`: all announced rules in order, duplicates kept. -/
def Rules (tokens : List TokenEntry) : List Rule :=
  rulesLoop ⟨"", [], [], .tokenFirstToken⟩ tokens

/-- Models `BlockCount`: count the `tokenBlockStart` tokens. -/
def BlockCount (tokens : List TokenEntry) : Nat :=
  tokens.foldl (fun count t => if t.typ = .tokenBlockStart then count + 1 else count) 0

/-- A selector announcement in a block header: either a bare `tokenValue`
token, or a selector-prefix token (`.`/`#`) immediately followed by a
`tokenValue` token. -/
inductive SelT where
  | plain (t : TokenEntry)
  | pre (p : TokenEntry) (t : TokenEntry)
deriving DecidableEq, Repr

/-- Token list of a selector announcement. -/
def SelT.toks : SelT → List TokenEntry
  | .plain t => [t]
  | .pre p t => [p, t]

/-- The selector name `parse` records for the announcement. -/
def SelT.name : SelT → String
  | .plain t => t.value
  | .pre p t => p.value ++ t.value

/-- Well-formedness of a selector announcement: the categories are the ones
the block grammar demands. -/
def SelT.wf : SelT → Prop
  | .plain t => t.typ = .tokenValue
  | .pre p t => p.typ = .tokenSelector ∧ t.typ = .tokenValue

instance : DecidablePred SelT.wf := by
  intro s
  cases s <;> (unfold SelT.wf; infer_instance)

/-- A declaration `name : value ;` as four tokens. -/
structure DeclT where
  nameTok : TokenEntry
  sepTok : TokenEntry
  valTok : TokenEntry
  endTok : TokenEntry
deriving DecidableEq, Repr

/-- Token list of a declaration. -/
def DeclT.toks (d : DeclT) : List TokenEntry :=
  [d.nameTok, d.sepTok, d.valTok, d.endTok]

/-- Well-formedness of a declaration: a nonempty `tokenValue` name, the `:`
separator, a nonempty `tokenValue` value, the `;` terminator. -/
def DeclT.wf (d : DeclT) : Prop :=
  d.nameTok.typ = .tokenValue ∧ d.nameTok.value ≠ "" ∧
    d.sepTok.value = ":" ∧
    d.valTok.typ = .tokenValue ∧ d.valTok.value ≠ "" ∧
    d.endTok.value = ";"

instance : DecidablePred DeclT.wf := by
  intro d
  unfold DeclT.wf
  infer_instance

/-- One block: at least one selector announcement, `{`, declarations, `}`. -/
structure BlockT where
  sels : List SelT
  openTok : TokenEntry
  decls : List DeclT
  closeTok : TokenEntry
deriving DecidableEq, Repr

/-- Token list of a block. -/
def BlockT.toks (b : BlockT) : List TokenEntry :=
  (b.sels.map SelT.toks).flatten ++ [b.openTok] ++ (b.decls.map DeclT.toks).flatten ++ [b.closeTok]

/-- Well-formedness of a block. -/
def BlockT.wf (b : BlockT) : Prop :=
  b.sels ≠ [] ∧ (∀ s ∈ b.sels, s.wf) ∧ b.openTok.value = "\x7b" ∧
    (∀ d ∈ b.decls, d.wf) ∧ b.closeTok.value = "\x7d"

instance : DecidablePred BlockT.wf := by
  intro b
  unfold BlockT.wf
  infer_instance

/-- Token list of a whole stylesheet of blocks. -/
def sheetToks (bs : List BlockT) : List TokenEntry :=
  (bs.map BlockT.toks).flatten

/-- The styles map a block's declarations build up from the empty map. -/
def declMap (b : BlockT) : Smap :=
  b.decls.foldl (fun m d => smapInsert m d.nameTok.value d.valTok.value) []

/-- The rule-map/selector-list recurrence one block induces: append the
block's selector names to the accumulated list, then commit the block's
styles to every accumulated selector. -/
def sheetStep (p : CssMap × List String) (b : BlockT) : CssMap × List String :=
  let rl := p.2 ++ b.sels.map SelT.name
  (blockEndCss rl p.1 (declMap b), rl)


theorem smapContains_nil (k : String) : smapContains [] k = false := rfl

theorem smapContains_cons (p : String × String) (l : Smap) (k : String) :
    smapContains (p :: l) k = ((p.1 == k) || smapContains l k) := rfl

theorem smapContains_append (a b : Smap) (k : String) :
    smapContains (a ++ b) k = (smapContains a k || smapContains b k) := by
  simp [smapContains, List.any_append]

theorem smapContains_insert_self (m : Smap) (k v : String) :
    smapContains (smapInsert m k v) k = true := by
  induction m with
  | nil => simp [smapInsert, smapContains]
  | cons p rest ih =>
    by_cases h : p.1 = k
    · simp [smapInsert, h, smapContains_cons]
    · simp only [smapInsert, beq_iff_eq, h, if_false, smapContains_cons, ih, Bool.or_true]

theorem smapContains_insert_mono (m : Smap) (k v k2 : String)
    (h : smapContains m k2 = true) :
    smapContains (smapInsert m k v) k2 = true := by
  induction m with
  | nil => simp [smapContains_nil] at h
  | cons p rest ih =>
    simp only [smapContains_cons, Bool.or_eq_true, beq_iff_eq] at h
    by_cases hp : p.1 = k
    · simp only [smapInsert, beq_iff_eq, hp, if_true, smapContains_cons, Bool.or_eq_true]
      rcases h with h | h
      · exact Or.inl (by rw [← hp]; exact h)
      · exact Or.inr h
    · simp only [smapInsert, beq_iff_eq, hp, if_false, smapContains_cons, Bool.or_eq_true]
      rcases h with h | h
      · exact Or.inl h
      · exact Or.inr (ih h)

theorem mergeOldInto_nil (st : Smap) : mergeOldInto st [] = st := rfl

theorem mergeOldInto_cons (st : Smap) (p : String × String) (old : Smap) :
    mergeOldInto st (p :: old) =
      mergeOldInto (if smapContains st p.1 then st else st ++ [p]) old := rfl

theorem mergeOldInto_mono (old : Smap) (st : Smap) (k : String)
    (h : smapContains st k = true) :
    smapContains (mergeOldInto st old) k = true := by
  induction old generalizing st with
  | nil => rw [mergeOldInto_nil]; exact h
  | cons p rest ih =>
    rw [mergeOldInto_cons]
    apply ih
    by_cases hc : smapContains st p.1 = true
    · rw [if_pos hc]; exact h
    · rw [if_neg hc, smapContains_append, h, Bool.true_or]

theorem mergeOldInto_right (old : Smap) (st : Smap) (k : String)
    (h : smapContains old k = true) :
    smapContains (mergeOldInto st old) k = true := by
  induction old generalizing st with
  | nil => simp [smapContains_nil] at h
  | cons p rest ih =>
    rw [mergeOldInto_cons]
    rw [smapContains_cons, Bool.or_eq_true, beq_iff_eq] at h
    rcases h with h | h
    · apply mergeOldInto_mono
      by_cases hc : smapContains st p.1 = true
      · rw [if_pos hc, ← h]; exact hc
      · rw [if_neg hc, smapContains_append, Bool.or_eq_true]
        exact Or.inr (by simp [smapContains_cons, h])
    · exact ih _ h

theorem cssLookup_insert_self (m : CssMap) (k : String) (v : Smap) :
    cssLookup (cssInsert m k v) k = some v := by
  induction m with
  | nil => simp [cssInsert, cssLookup]
  | cons p rest ih =>
    by_cases h : p.1 = k
    · simp [cssInsert, cssLookup, h]
    · simp [cssInsert, cssLookup, h, ih]

theorem cssLookup_insert_ne (m : CssMap) (k k2 : String) (v : Smap)
    (h : k2 ≠ k) :
    cssLookup (cssInsert m k v) k2 = cssLookup m k2 := by
  have hk : k ≠ k2 := Ne.symm h
  induction m with
  | nil => simp [cssInsert, cssLookup, hk]
  | cons p rest ih =>
    by_cases hp : p.1 = k
    · have hp2 : p.1 ≠ k2 := by rw [hp]; exact hk
      simp [cssInsert, cssLookup, hp, hk, hp2]
    · by_cases hq : p.1 = k2
      · simp [cssInsert, cssLookup, hp, hq, h]
      · simp [cssInsert, cssLookup, hp, hq, ih]

theorem cssLookup_foldAssign (rl : List String) (c0 : CssMap) (v : Smap) (r : String) :
    cssLookup (rl.foldl (fun c s => cssInsert c s v) c0) r =
      if r ∈ rl then some v else cssLookup c0 r := by
  induction rl generalizing c0 with
  | nil => simp
  | cons h t ih =>
    simp only [List.foldl_cons]
    rw [ih]
    by_cases hmem : r ∈ t
    · simp [hmem]
    · by_cases hr : r = h
      · simp [hmem, hr, cssLookup_insert_self]
      · simp [hmem, hr, cssLookup_insert_ne _ _ _ _ hr]

theorem blockEndPhase_nil (css : CssMap) (st : Smap) :
    blockEndPhase [] css st = (css, st) := rfl

theorem blockEndPhase_cons (r : String) (rs : List String) (css : CssMap) (st : Smap) :
    blockEndPhase (r :: rs) css st =
      blockEndPhase rs
        (cssInsert css r
          (match cssLookup css r with
           | some old => mergeOldInto st old
           | none => st))
        (match cssLookup css r with
         | some old => mergeOldInto st old
         | none => st) := rfl

theorem blockEndPhase_mono (rl : List String) (css : CssMap) (st : Smap) (k : String)
    (h : smapContains st k = true) :
    smapContains (blockEndPhase rl css st).2 k = true := by
  induction rl generalizing css st with
  | nil => rw [blockEndPhase_nil]; exact h
  | cons r rs ih =>
    rw [blockEndPhase_cons]
    cases hc : cssLookup css r with
    | none => simp only [hc]; exact ih _ _ h
    | some old => simp only [hc]; exact ih _ _ (mergeOldInto_mono old st k h)

theorem blockEndPhase_old (rl : List String) (css : CssMap) (st : Smap)
    (r : String) (m : Smap) (k : String)
    (hmem : r ∈ rl) (hl : cssLookup css r = some m) (hk : smapContains m k = true) :
    smapContains (blockEndPhase rl css st).2 k = true := by
  induction rl generalizing css st m with
  | nil => simp at hmem
  | cons h t ih =>
    rw [blockEndPhase_cons]
    rcases List.mem_cons.mp hmem with hr | hr
    · subst hr
      rw [hl]
      exact blockEndPhase_mono t _ _ k (mergeOldInto_right m st k hk)
    · by_cases hrh : r = h
      · subst hrh
        rw [hl]
        exact ih (cssInsert css r (mergeOldInto st m)) (mergeOldInto st m)
          (mergeOldInto st m) hr
          (cssLookup_insert_self css r (mergeOldInto st m))
          (mergeOldInto_right m st k hk)
      · cases hc : cssLookup css h with
        | none =>
          simp only [hc]
          exact ih _ _ m hr (by rw [cssLookup_insert_ne _ _ _ _ hrh]; exact hl) hk
        | some old =>
          simp only [hc]
          exact ih _ _ m hr (by rw [cssLookup_insert_ne _ _ _ _ hrh]; exact hl) hk

theorem blockEndCss_lookup_mem (rl : List String) (css : CssMap) (st : Smap)
    (r : String) (hmem : r ∈ rl) :
    cssLookup (blockEndCss rl css st) r = some (blockEndPhase rl css st).2 := by
  unfold blockEndCss
  rw [cssLookup_foldAssign]
  simp [hmem]

theorem foldlInsert_mono (ds : List DeclT) (m : Smap) (k : String)
    (h : smapContains m k = true) :
    smapContains (ds.foldl (fun acc d => smapInsert acc d.nameTok.value d.valTok.value) m) k
      = true := by
  induction ds generalizing m with
  | nil => exact h
  | cons d rest ih =>
    simp only [List.foldl_cons]
    exact ih _ (smapContains_insert_mono _ _ _ _ h)

theorem declMap_contains (b : BlockT) (d : DeclT) (hd : d ∈ b.decls) :
    smapContains (declMap b) d.nameTok.value = true := by
  unfold declMap
  revert hd
  generalize ([] : Smap) = m
  induction b.decls generalizing m with
  | nil => intro h; simp at h
  | cons e rest ih =>
    intro hd
    rcases List.mem_cons.mp hd with hde | hde
    · subst hde
      simp only [List.foldl_cons]
      exact foldlInsert_mono rest _ _ (smapContains_insert_self m _ _)
    · simp only [List.foldl_cons]
      exact ih _ hde

theorem tt_colon : newTokenType ":" = .tokenStyleSeparator := rfl

theorem tt_semi : newTokenType ";" = .tokenStatementEnd := rfl

theorem tt_open : newTokenType "\x7b" = .tokenBlockStart := rfl

theorem tt_close : newTokenType "\x7d" = .tokenBlockEnd := rfl

theorem parseFrom_cons_ok {st st2 : ParseState} {t : TokenEntry}
    (h : parseStep st t = .ok st2) (rest : List TokenEntry) :
    parseFrom st (t :: rest) = parseFrom st2 rest := by
  simp [parseFrom, h]

theorem decls_run (ds : List DeclT) (st : ParseState) (rest : List TokenEntry)
    (hwf : ∀ d ∈ ds, d.wf)
    (hblk : st.isBlock = true)
    (hprev : st.prevToken = .tokenBlockStart ∨ st.prevToken = .tokenStatementEnd) :
    ∃ st2 : ParseState,
      parseFrom st ((ds.map DeclT.toks).flatten ++ rest) = parseFrom st2 rest ∧
      st2.rule = st.rule ∧ st2.css = st.css ∧
      st2.styles =
        ds.foldl (fun m d => smapInsert m d.nameTok.value d.valTok.value) st.styles ∧
      st2.isBlock = true ∧
      (st2.prevToken = .tokenBlockStart ∨ st2.prevToken = .tokenStatementEnd) := by
  induction ds generalizing st with
  | nil => exact ⟨st, by simp, rfl, rfl, rfl, hblk, hprev⟩
  | cons d ds ih =>
    obtain ⟨h1, h2, h3, h4, h5, h6⟩ := hwf d (List.mem_cons_self d ds)
    have ht2 : d.sepTok.typ = .tokenStyleSeparator := by
      rw [TokenEntry.typ, h3, tt_colon]
    have ht4 : d.endTok.typ = .tokenStatementEnd := by
      rw [TokenEntry.typ, h6, tt_semi]
    have e1 : parseStep st d.nameTok =
        .ok { st with style := d.nameTok.value, prevToken := .tokenValue } := by
      rcases hprev with hp | hp <;> simp [parseStep, h1, hp]
    have e2 : parseStep { st with style := d.nameTok.value, prevToken := .tokenValue }
        d.sepTok =
        .ok { st with style := d.nameTok.value, prevToken := .tokenStyleSeparator } := by
      simp [parseStep, ht2]
    have e3 : parseStep
        { st with style := d.nameTok.value, prevToken := .tokenStyleSeparator }
        d.valTok =
        .ok { st with
                style := d.nameTok.value, value := d.valTok.value,
                prevToken := .tokenValue } := by
      simp [parseStep, h4]
    have e4 : parseStep
        { st with
            style := d.nameTok.value, value := d.valTok.value,
            prevToken := .tokenValue }
        d.endTok =
        .ok { st with
                style := d.nameTok.value, value := d.valTok.value,
                styles := smapInsert st.styles d.nameTok.value d.valTok.value,
                prevToken := .tokenStatementEnd } := by
      simp [parseStep, ht4, h2, h5]
    obtain ⟨st2, heq, hr, hc, hs, hb, hp⟩ :=
      ih { st with
             style := d.nameTok.value, value := d.valTok.value,
             styles := smapInsert st.styles d.nameTok.value d.valTok.value,
             prevToken := .tokenStatementEnd }
        (fun d hd => hwf d (List.mem_cons_of_mem _ hd)) hblk (Or.inr rfl)
    refine ⟨st2, ?_, hr, hc, by simpa using hs, hb, hp⟩
    simp only [List.map_cons, List.flatten_cons, DeclT.toks, List.cons_append,
      List.append_assoc]
    rw [parseFrom_cons_ok e1, parseFrom_cons_ok e2, parseFrom_cons_ok e3,
      parseFrom_cons_ok e4]
    simpa using heq

theorem sels_run (ss : List SelT) (st : ParseState) (rest : List TokenEntry)
    (hwf : ∀ s ∈ ss, s.wf)
    (hprev : st.prevToken = .tokenFirstToken ∨ st.prevToken = .tokenBlockEnd ∨
      st.prevToken = .tokenValue) :
    ∃ st2 : ParseState,
      parseFrom st ((ss.map SelT.toks).flatten ++ rest) = parseFrom st2 rest ∧
      st2.rule = st.rule ++ ss.map SelT.name ∧
      st2.css = st.css ∧ st2.styles = st.styles ∧
      st2.style = st.style ∧ st2.value = st.value ∧
      st2.isBlock = st.isBlock ∧
      (st2.prevToken = .tokenValue ∨ (ss = [] ∧ st2.prevToken = st.prevToken)) := by
  induction ss generalizing st with
  | nil => exact ⟨st, by simp, by simp, rfl, rfl, rfl, rfl, rfl, Or.inr ⟨rfl, rfl⟩⟩
  | cons s ss ih =>
    cases s with
    | plain t =>
      have ht : t.typ = .tokenValue := hwf (.plain t) (List.mem_cons_self _ _)
      have e1 : parseStep st t =
          .ok { st with rule := st.rule ++ [t.value], prevToken := .tokenValue } := by
        rcases hprev with hp | hp | hp <;> simp [parseStep, ht, hp]
      obtain ⟨st2, heq, hr, hc, hs, hy, hv, hb, hp⟩ :=
        ih { st with rule := st.rule ++ [t.value], prevToken := .tokenValue }
          (fun s hs => hwf s (List.mem_cons_of_mem _ hs)) (Or.inr (Or.inr rfl))
      refine ⟨st2, ?_, ?_, hc, hs, hy, hv, hb, ?_⟩
      · simp only [List.map_cons, List.flatten_cons, SelT.toks, List.cons_append,
          List.append_assoc]
        rw [parseFrom_cons_ok e1]
        simpa using heq
      · simpa [List.append_assoc, SelT.name] using hr
      · rcases hp with hp | ⟨_, hp⟩
        · exact Or.inl hp
        · exact Or.inl hp
    | pre p t =>
      obtain ⟨hp1, ht⟩ : p.typ = .tokenSelector ∧ t.typ = .tokenValue :=
        hwf (.pre p t) (List.mem_cons_self _ _)
      have e1 : parseStep st p =
          .ok { st with selector := p.value, prevToken := .tokenSelector } := by
        simp [parseStep, hp1]
      have e2 : parseStep { st with selector := p.value, prevToken := .tokenSelector }
          t =
          .ok { st with
                  selector := p.value,
                  rule := st.rule ++ [p.value ++ t.value], prevToken := .tokenValue } := by
        simp [parseStep, ht]
      obtain ⟨st2, heq, hr, hc, hs, hy, hv, hb, hp⟩ :=
        ih { st with
               selector := p.value,
               rule := st.rule ++ [p.value ++ t.value], prevToken := .tokenValue }
          (fun s hs => hwf s (List.mem_cons_of_mem _ hs)) (Or.inr (Or.inr rfl))
      refine ⟨st2, ?_, ?_, hc, hs, hy, hv, hb, ?_⟩
      · simp only [List.map_cons, List.flatten_cons, SelT.toks, List.cons_append,
          List.append_assoc]
        rw [parseFrom_cons_ok e1, parseFrom_cons_ok e2]
        simpa using heq
      · simpa [List.append_assoc, SelT.name] using hr
      · rcases hp with hp | ⟨_, hp⟩
        · exact Or.inl hp
        · exact Or.inl hp

theorem block_run (b : BlockT) (st : ParseState) (rest : List TokenEntry)
    (hwf : b.wf)
    (hprev : st.prevToken = .tokenFirstToken ∨ st.prevToken = .tokenBlockEnd) :
    ∃ st2 : ParseState,
      parseFrom st (b.toks ++ rest) = parseFrom st2 rest ∧
      st2.css = blockEndCss (st.rule ++ b.sels.map SelT.name) st.css
        (b.decls.foldl (fun m d => smapInsert m d.nameTok.value d.valTok.value)
          st.styles) ∧
      st2.rule = st.rule ++ b.sels.map SelT.name ∧
      st2.styles = [] ∧ st2.isBlock = false ∧ st2.prevToken = .tokenBlockEnd := by
  obtain ⟨hne, hsels, hopen, hdecls, hclose⟩ := hwf
  have htO : b.openTok.typ = .tokenBlockStart := by
    rw [TokenEntry.typ, hopen, tt_open]
  have htC : b.closeTok.typ = .tokenBlockEnd := by
    rw [TokenEntry.typ, hclose, tt_close]
  obtain ⟨st1, heq1, hr1, hc1, hs1, hy1, hv1, hb1, hp1⟩ :=
    sels_run b.sels st
      (b.openTok :: ((b.decls.map DeclT.toks).flatten ++ (b.closeTok :: rest)))
      hsels (by rcases hprev with hp | hp; exact Or.inl hp; exact Or.inr (Or.inl hp))
  have hpv : st1.prevToken = .tokenValue := by
    rcases hp1 with hp | ⟨habs, _⟩
    · exact hp
    · exact absurd habs hne
  have e2 : parseStep st1 b.openTok =
      .ok { st1 with isBlock := true, prevToken := .tokenBlockStart } := by
    simp [parseStep, htO, hpv]
  obtain ⟨st3, heq3, hr3, hc3, hs3, hb3, hp3⟩ :=
    decls_run b.decls { st1 with isBlock := true, prevToken := .tokenBlockStart }
      (b.closeTok :: rest) hdecls rfl (Or.inl rfl)
  have e4 : parseStep st3 b.closeTok =
      .ok { st3 with
              css := blockEndCss st3.rule st3.css st3.styles,
              styles := [], style := "", value := "", isBlock := false,
              prevToken := .tokenBlockEnd } := by
    simp [parseStep, htC, hb3]
  refine ⟨{ st3 with
              css := blockEndCss st3.rule st3.css st3.styles,
              styles := [], style := "", value := "", isBlock := false,
              prevToken := .tokenBlockEnd }, ?_, ?_, ?_, rfl, rfl, rfl⟩
  · show parseFrom st
        ((b.sels.map SelT.toks).flatten ++ [b.openTok] ++
          (b.decls.map DeclT.toks).flatten ++ [b.closeTok] ++ rest) = _
    rw [List.append_assoc, List.append_assoc, List.append_assoc]
    simp only [List.cons_append, List.nil_append]
    rw [heq1, parseFrom_cons_ok e2, heq3, parseFrom_cons_ok e4]
  · show blockEndCss st3.rule st3.css st3.styles = _
    rw [hr3, hc3, hs3]
    simp only [hr1, hc1, hs1]
  · show st3.rule = _
    rw [hr3]
    simpa using hr1

theorem sheet_run (bs : List BlockT) (st : ParseState)
    (hwf : ∀ b ∈ bs, b.wf)
    (hprev : st.prevToken = .tokenFirstToken ∨ st.prevToken = .tokenBlockEnd)
    (hstyles : st.styles = []) :
    parseFrom st (sheetToks bs) = ((bs.foldl sheetStep (st.css, st.rule)).1, none) := by
  induction bs generalizing st with
  | nil => simp [sheetToks, parseFrom]
  | cons b bs ih =>
    obtain ⟨st2, heq, hcss, hrule, hst, _, hpv⟩ :=
      block_run b st (sheetToks bs) (hwf b (List.mem_cons_self b bs)) hprev
    have : parseFrom st (sheetToks (b :: bs)) = parseFrom st2 (sheetToks bs) := by
      show parseFrom st (((b :: bs).map BlockT.toks).flatten) = _
      simp only [List.map_cons, List.flatten_cons]
      exact heq
    rw [this, ih st2 (fun b hb => hwf b (List.mem_cons_of_mem _ hb)) (Or.inr hpv) hst]
    simp only [List.foldl_cons, sheetStep, hcss, hrule, hstyles, declMap]

theorem sheet_preserve (t : List BlockT) (css : CssMap) (rl : List String)
    (sel k : String) (m : Smap)
    (hl : cssLookup css sel = some m) (hk : smapContains m k = true)
    (hmem : sel ∈ rl) :
    ∃ m2, cssLookup (t.foldl sheetStep (css, rl)).1 sel = some m2 ∧
      smapContains m2 k = true := by
  induction t generalizing css rl m with
  | nil => exact ⟨m, hl, hk⟩
  | cons b t ih =>
    simp only [List.foldl_cons, sheetStep]
    apply ih _ _ (blockEndPhase (rl ++ b.sels.map SelT.name) css (declMap b)).2
    · exact blockEndCss_lookup_mem _ _ _ _ (List.mem_append_left _ hmem)
    · exact blockEndPhase_old _ _ _ sel m k (List.mem_append_left _ hmem) hl hk
    · exact List.mem_append_left _ hmem

theorem sheet_presence (bs : List BlockT) (css : CssMap) (rl : List String)
    (b : BlockT) (hb : b ∈ bs) (s : SelT) (hs : s ∈ b.sels) (d : DeclT)
    (hd : d ∈ b.decls) :
    ∃ m, cssLookup (bs.foldl sheetStep (css, rl)).1 (SelT.name s) = some m ∧
      smapContains m d.nameTok.value = true := by
  induction bs generalizing css rl with
  | nil => simp at hb
  | cons b0 t ih =>
    rcases List.mem_cons.mp hb with hb0 | hbt
    · subst hb0
      simp only [List.foldl_cons, sheetStep]
      have hmem : SelT.name s ∈ rl ++ b.sels.map SelT.name :=
        List.mem_append_right _ (List.mem_map_of_mem SelT.name hs)
      exact sheet_preserve t _ _ _ _ _
        (blockEndCss_lookup_mem _ _ _ _ hmem)
        (blockEndPhase_mono _ _ _ _ (declMap_contains b d hd))
        hmem
    · simp only [List.foldl_cons]
      exact ih _ _ hbt

theorem parseFrom_cons_error {st : ParseState} {t : TokenEntry} {e : ParseErr}
    (h : parseStep st t = .error e) (rest : List TokenEntry) :
    parseFrom st (t :: rest) = (st.css, some e) := by
  simp [parseFrom, h]

theorem newTokenType_eq_sep_iff (text : String) :
    newTokenType text = .tokenStyleSeparator ↔ text = ":" := by
  constructor
  · intro h
    unfold newTokenType at h
    split_ifs at h <;> simp_all
  · intro h
    rw [h]
    exact tt_colon

theorem modeAfter_relaxed (text : String) :
    modeAfter text = .relaxed ↔ text = ":" := by
  unfold modeAfter
  by_cases h : newTokenType text = .tokenStyleSeparator
  · rw [if_pos h]
    simp [(newTokenType_eq_sep_iff text).mp h]
  · rw [if_neg h]
    constructor
    · intro hh
      exact absurd hh (by decide)
    · intro heq
      exact absurd ((newTokenType_eq_sep_iff text).mpr heq) h

theorem blockCount_foldl (l : List TokenEntry) (n : Nat) :
    l.foldl (fun count t => if t.typ = .tokenBlockStart then count + 1 else count) n =
      n + l.countP (fun t => t.typ == .tokenBlockStart) := by
  induction l generalizing n with
  | nil => simp
  | cons t rest ih =>
    simp only [List.foldl_cons, List.countP_cons]
    by_cases h : t.typ = .tokenBlockStart
    · rw [if_pos h, ih]
      simp [h]
      omega
    · rw [if_neg h, ih]
      simp [h]

theorem rulesLoop_no_blockStart (l : List TokenEntry) (rs : RulesState)
    (h : ∀ t ∈ l, t.typ ≠ .tokenBlockStart) :
    rulesLoop rs l = rs.rules := by
  induction l generalizing rs with
  | nil => rfl
  | cons t rest ih =>
    have ht := h t (List.mem_cons_self t rest)
    have hstep : (rulesStep rs t).rules = rs.rules := by
      cases htyp : t.typ
      case tokenBlockStart => exact absurd htyp ht
      case tokenValue =>
        simp only [rulesStep, htyp]
        cases rs.prevToken <;> rfl
      all_goals simp [rulesStep, htyp]
    calc rulesLoop rs (t :: rest) = rulesLoop (rulesStep rs t) rest := rfl
      _ = (rulesStep rs t).rules := ih _ (fun t2 h2 => h t2 (List.mem_cons_of_mem _ h2))
      _ = rs.rules := hstep

/-- C1, counterexample: on the claim's own input `a{x:1;} a{x:2;y:3;}`
parsing does not return a map with `a -> \x7bx:2, y:3\x7d` at all -- it fails.
After the first token the tokenizer's "no spaces" ident rule treats `\x7b`
and `\x7d` as identifier runes, so the input lexes as
`a`, `\x7bx`, `:`, `1`, `;`, ... and the `;` arrives with an empty current
style, which is a parse error on line 1. -/
theorem C1_counterexample :
    Unmarshal "a\x7bx:1;\x7d a\x7bx:2;y:3;\x7d" =
      ([], some ⟨1, "expected style before semicolon"⟩) := by
  decide

/-- C1, amended: with whitespace separating the braces from the identifiers
(`a \x7b x: 1; \x7d a \x7b x: 2; y: 3; \x7d`), re-declaring selector `a` in
two blocks merges the properties with the current block's declarations
winning on conflict and the merge only filling gaps from the prior entry:
the result maps exactly the one rule `a` to exactly
`\x7bx: 2, y: 3\x7d`. -/
theorem C1_amended :
    Unmarshal "a \x7b x: 1; \x7d a \x7b x: 2; y: 3; \x7d" =
      ([("a", [("x", "2"), ("y", "3")])], none) := by
  decide

/-- C2, counterexample: `a \x7b x: 1; \x7d b \x7b y: 2; \x7d` is a
well-formed stylesheet and parses without error, but property `y` -- declared
only in `b`'s block -- also appears under rule `a`, because the selector
list is never cleared; so the resulting map does not contain every declared
property only under its own rule. -/
theorem C2_counterexample :
    Unmarshal "a \x7b x: 1; \x7d b \x7b y: 2; \x7d" =
      ([("a", [("y", "2"), ("x", "1")]), ("b", [("y", "2"), ("x", "1")])], none) := by
  decide

/-- C2, amended: parsing any token sequence of the block-grammar shape
((prefix? value)+ `\x7b` (name `:` value `;`)* `\x7d`)* with nonempty names
and values never returns an error, and every property declared in a block
appears under each of that block's selectors in the resulting map; the
original "exactly once per rule" containment fails (see the counterexample)
because each block's styles are also committed to every selector of earlier
blocks. -/
theorem C2_amended (bs : List BlockT) (hwf : ∀ b ∈ bs, b.wf) :
    (parse (sheetToks bs)).2 = none ∧
      ∀ b ∈ bs, ∀ s ∈ b.sels, ∀ d ∈ b.decls,
        ∃ m, cssLookup (parse (sheetToks bs)).1 (SelT.name s) = some m ∧
          smapContains m d.nameTok.value = true := by
  have h := sheet_run bs initParseState hwf (Or.inl rfl) rfl
  constructor
  · show (parseFrom initParseState (sheetToks bs)).2 = none
    rw [h]
  · intro b hb s hs d hd
    show ∃ m, cssLookup (parseFrom initParseState (sheetToks bs)).1 (SelT.name s)
        = some m ∧ smapContains m d.nameTok.value = true
    rw [h]
    exact sheet_presence bs [] [] b hb s hs d hd

/-- C2, witness: the amended theorem applied to the one-block sheet of
`a \x7b x: 1; \x7d`. -/
theorem C2_amended_witness :
    (parse (sheetToks [⟨[SelT.plain ⟨"a", 1⟩], ⟨"\x7b", 1⟩,
        [⟨⟨"x", 1⟩, ⟨":", 1⟩, ⟨"1", 1⟩, ⟨";", 1⟩⟩], ⟨"\x7d", 1⟩⟩])).2 = none ∧
      ∃ m, cssLookup
          (parse (sheetToks [⟨[SelT.plain ⟨"a", 1⟩], ⟨"\x7b", 1⟩,
            [⟨⟨"x", 1⟩, ⟨":", 1⟩, ⟨"1", 1⟩, ⟨";", 1⟩⟩], ⟨"\x7d", 1⟩⟩])).1
          (SelT.name (SelT.plain ⟨"a", 1⟩)) = some m ∧
        smapContains m "x" = true := by
  have h := C2_amended [⟨[SelT.plain ⟨"a", 1⟩], ⟨"\x7b", 1⟩,
      [⟨⟨"x", 1⟩, ⟨":", 1⟩, ⟨"1", 1⟩, ⟨";", 1⟩⟩], ⟨"\x7d", 1⟩⟩] (by decide)
  exact ⟨h.1, h.2 _ (List.mem_cons_self _ _) (SelT.plain ⟨"a", 1⟩)
    (List.mem_cons_self _ _) ⟨⟨"x", 1⟩, ⟨":", 1⟩, ⟨"1", 1⟩, ⟨";", 1⟩⟩
    (List.mem_cons_self _ _)⟩

/-- C3: the accumulated selector list survives `tokenBlockEnd` unchanged
(first conjunct: a successful BlockEnd step keeps `rule` intact), so each
BlockEnd commits the current block's styles to every selector seen since the
start of the document, merged with each selector's prior entry and (modelled
by assigning the one final merged map) sharing one underlying styles map:
`a \x7b x: 1; \x7d b \x7b y: 2; \x7d` maps both `a` and `b` to the same
`\x7bx: 1, y: 2\x7d`. -/
theorem C3_theorem :
    (∀ (st st2 : ParseState) (line : Nat),
        parseStep st ⟨"\x7d", line⟩ = .ok st2 → st2.rule = st.rule) ∧
      Unmarshal "a \x7b x: 1; \x7d b \x7b y: 2; \x7d" =
        ([("a", [("y", "2"), ("x", "1")]), ("b", [("y", "2"), ("x", "1")])], none) := by
  constructor
  · intro st st2 line h
    simp only [parseStep, TokenEntry.typ, tt_close] at h
    by_cases hb : st.isBlock = true
    · rw [if_pos hb] at h
      cases h
      rfl
    · rw [if_neg hb] at h
      cases h
  · decide

/-- C3, witness: the first conjunct applied to a concrete open-block state
with `rule = ["a"]`. -/
theorem C3_witness :
    ParseState.rule ⟨["a"], "", "", "", false, [("a", [("x", "1")])], [],
        .tokenBlockEnd⟩ = ["a"] :=
  C3_theorem.1 ⟨["a"], "", "", "", true, [], [("x", "1")], .tokenValue⟩
    ⟨["a"], "", "", "", false, [("a", [("x", "1")])], [], .tokenBlockEnd⟩ 1 rfl

/-- C4, counterexample: the context-sensitivity is not limited to the
after-`:` relaxation.  Before the first token is produced the scanner's
default identifier rule (underscore/letter, digit non-initially) is in
force, so tokenizing `a-b` terminates the first identifier at `-` -- which
the non-relaxed "no spaces" rule of every later state accepts as an
identifier rune (second conjunct) -- and yields the two tokens `a` and `-b`
instead of the single identifier `a-b` the claimed boundary rule would
produce. -/
theorem C4_counterexample :
    Tokenize "a-b" = [⟨"a", 1⟩, ⟨"-b", 1⟩] ∧ identRune .strict '-' 1 = true := by
  decide

/-- C4, amended: tokenization is context-sensitive in exactly two ways: the
initial state uses the scanner's default (Go identifier) rule, and after any
produced token the installed rule is the relaxed spaces-allowed one exactly
when that token was the separator `:` (and the strict "no spaces" rule
otherwise); identifiers produced under the relaxed rule are terminated only
by newline, tab, `:` or `;`, and under the strict rule also by blank, `.`
and `#`. -/
theorem C4_amended :
    (∀ (fuel : Nat) (ts : TokState) (t : TokenEntry) (ts2 : TokState),
        tokNext fuel ts = some (t, ts2) → (ts2.mode = .relaxed ↔ t.value = ":")) ∧
      (∀ s : String, (initTokState s).mode = .goDefault) ∧
      (∀ c : Char,
        identRune .relaxed c 1 =
          !(c == '\n' || c == '\t' || c == ':' || c == ';')) ∧
      ∀ c : Char,
        identRune .strict c 1 =
          !(c == '.' || c == '#' || c == '\n' || c == ' ' || c == '\t' ||
            c == ':' || c == ';') := by
  refine ⟨?_, fun s => rfl, fun c => rfl, fun c => rfl⟩
  intro fuel
  induction fuel with
  | zero =>
    intro ts t ts2 h
    simp [tokNext] at h
  | succ n ih =>
    intro ts t ts2 h
    simp only [tokNext] at h
    split at h
    · simp at h
    · rename_i c cs hsk
      by_cases h1 : identRune ts.mode c 0 = true
      · rw [if_pos h1] at h
        simp only [Option.some.injEq, Prod.mk.injEq] at h
        obtain ⟨rfl, rfl⟩ := h
        exact modeAfter_relaxed _
      · rw [if_neg h1] at h
        by_cases h2 : c.isDigit = true
        · rw [if_pos h2] at h
          simp only [Option.some.injEq, Prod.mk.injEq] at h
          obtain ⟨rfl, rfl⟩ := h
          exact modeAfter_relaxed _
        · rw [if_neg h2] at h
          by_cases h3 : (c == '/') = true
          · rw [if_pos h3] at h
            split at h
            · exact ih _ _ _ h
            · exact ih _ _ _ h
            · simp only [Option.some.injEq, Prod.mk.injEq] at h
              obtain ⟨rfl, rfl⟩ := h
              exact modeAfter_relaxed "/"
          · rw [if_neg h3] at h
            by_cases h4 : (c == '.') = true
            · rw [if_pos h4] at h
              split at h
              · rename_i d ds
                by_cases h5 : d.isDigit = true
                · rw [if_pos h5] at h
                  simp only [Option.some.injEq, Prod.mk.injEq] at h
                  obtain ⟨rfl, rfl⟩ := h
                  exact modeAfter_relaxed _
                · rw [if_neg h5] at h
                  simp only [Option.some.injEq, Prod.mk.injEq] at h
                  obtain ⟨rfl, rfl⟩ := h
                  exact modeAfter_relaxed "." 
              · simp only [Option.some.injEq, Prod.mk.injEq] at h
                obtain ⟨rfl, rfl⟩ := h
                exact modeAfter_relaxed "."
            · rw [if_neg h4] at h
              simp only [Option.some.injEq, Prod.mk.injEq] at h
              obtain ⟨rfl, rfl⟩ := h
              exact modeAfter_relaxed _

/-- C4, witness: the first conjunct applied to the one-character input `:`
scanned from the strict state. -/
theorem C4_witness :
    TokState.mode ⟨[], .relaxed, 0⟩ = .relaxed ↔
      TokenEntry.value ⟨":", 1⟩ = ":" :=
  C4_amended.1 1 ⟨[':'], .strict, 0⟩ ⟨":", 1⟩ ⟨[], .relaxed, 0⟩ (by decide)

/-- C5, counterexample: on the token sequence of `a\x7b\x7db\x7b\x7dc\x7b\x7d`
BlockCount returns 0, not 3: after the first token the "no spaces" ident
rule accepts `\x7b` and `\x7d` as identifier runes, so the whole run
`\x7b\x7db\x7b\x7dc\x7b\x7d` lexes as one Value token and the sequence
contains no BlockStart token at all. -/
theorem C5_counterexample :
    BlockCount (Tokenize "a\x7b\x7db\x7b\x7dc\x7b\x7d") = 0 ∧
      BlockCount (Tokenize "a\x7b\x7db\x7b\x7dc\x7b\x7d") ≠ 3 := by
  decide

/-- C5, amended: BlockCount returns the number of BlockStart tokens in the
sequence (first conjunct); the token sequence of `a\x7b\x7db\x7b\x7dc\x7b\x7d`
contains none of them (see the counterexample), while with whitespace
around the braces (`a \x7b \x7d b \x7b \x7d c \x7b \x7d`) BlockCount
returns 3. -/
theorem C5_amended :
    (∀ l : List TokenEntry,
        BlockCount l = l.countP (fun t => t.typ == .tokenBlockStart)) ∧
      BlockCount (Tokenize "a \x7b \x7d b \x7b \x7d c \x7b \x7d") = 3 := by
  constructor
  · intro l
    simpa [BlockCount] using blockCount_foldl l 0
  · decide

/-- C6: a `;` token makes the parse fail with an error carrying the token's
1-based line unless the previous token's category is Value and both the
current style name and the current value are non-empty, in which case it
commits `styles[style] = value` and continues; concretely
`sel \x7b ; \x7d` fails with the error on line 1. -/
theorem C6_theorem :
    (∀ (st : ParseState) (rest : List TokenEntry) (line : Nat),
        parseFrom st (⟨";", line⟩ :: rest) =
          if st.prevToken = .tokenValue ∧ st.style ≠ "" ∧ st.value ≠ "" then
            parseFrom { st with
                          styles := smapInsert st.styles st.style st.value,
                          prevToken := .tokenStatementEnd } rest
          else (st.css, some ⟨line, "expected style before semicolon"⟩)) ∧
      Unmarshal "sel \x7b ; \x7d" =
        ([], some ⟨1, "expected style before semicolon"⟩) := by
  constructor
  · intro st rest line
    have ht : (⟨";", line⟩ : TokenEntry).typ = .tokenStatementEnd := tt_semi
    by_cases h : st.prevToken = .tokenValue ∧ st.style ≠ "" ∧ st.value ≠ ""
    · rw [if_pos h]
      exact parseFrom_cons_ok (by simp [parseStep, ht, h]) rest
    · rw [if_neg h]
      exact parseFrom_cons_error (by simp [parseStep, ht, h]) rest
  · decide

/-- C7: a `\x7d` token while no block is open fails with the error
"rule block ends without a beginning" carrying the token's line, and a
`\x7b` token whose previous token's category is not Value fails with
"block is missing rule identifier" carrying the token's line; in both
failure branches the rest of the token list is discarded, i.e. the parse
aborts immediately with the partial map. -/
theorem C7_theorem :
    (∀ (st : ParseState) (rest : List TokenEntry) (line : Nat),
        parseFrom st (⟨"\x7d", line⟩ :: rest) =
          if st.isBlock then
            parseFrom { st with
                          css := blockEndCss st.rule st.css st.styles,
                          styles := [], style := "", value := "",
                          isBlock := false, prevToken := .tokenBlockEnd } rest
          else (st.css, some ⟨line, "rule block ends without a beginning"⟩)) ∧
      ∀ (st : ParseState) (rest : List TokenEntry) (line : Nat),
        parseFrom st (⟨"\x7b", line⟩ :: rest) =
          if st.prevToken = .tokenValue then
            parseFrom { st with isBlock := true, prevToken := .tokenBlockStart } rest
          else (st.css, some ⟨line, "block is missing rule identifier"⟩) := by
  constructor
  · intro st rest line
    have ht : (⟨"\x7d", line⟩ : TokenEntry).typ = .tokenBlockEnd := tt_close
    by_cases h : st.isBlock = true
    · rw [if_pos h]
      exact parseFrom_cons_ok (by simp [parseStep, ht, h]) rest
    · rw [if_neg h]
      exact parseFrom_cons_error (by simp [parseStep, ht, h]) rest
  · intro st rest line
    have ht : (⟨"\x7b", line⟩ : TokenEntry).typ = .tokenBlockStart := tt_open
    by_cases h : st.prevToken = .tokenValue
    · rw [if_pos h]
      exact parseFrom_cons_ok (by simp [parseStep, ht, h]) rest
    · rw [if_neg h]
      exact parseFrom_cons_error (by simp [parseStep, ht, h]) rest

/-- C8: the claim says Rules uses the same selector-prefix logic as the
parser, appending the prefix token's own text; the code instead hardcodes
`selector = "."` (parser.go line 263), so on the tokens of `#bar \x7b \x7d`
Rules lists `.bar` while the parser records the rule `#bar`.  The claim
describes the evident intent (the parser's logic, one screen above in the
same file, keeps the token's text) and the code deviates from it. -/
theorem C8_theorem :
    Rules (Tokenize "#bar \x7b \x7d") = [".bar"] ∧
      Unmarshal "#bar \x7b \x7d" = ([("#bar", [])], none) := by
  decide

/-- C9: Rule type classification by the leading character: a leading `.` is
a class, a leading `#` an id, anything else a tag; concretely
`.foo` / `#bar` / `div` classify as class / id / tag. -/
theorem C9_theorem :
    (∀ s : String, Rule.type ("." ++ s) = "class") ∧
      (∀ s : String, Rule.type ("#" ++ s) = "id") ∧
      (∀ r : Rule, hasPfx r "." = false → hasPfx r "#" = false →
        Rule.type r = "tag") ∧
      Rule.type ".foo" = "class" ∧ Rule.type "#bar" = "id" ∧
      Rule.type "div" = "tag" := by
  refine ⟨?_, ?_, ?_, by decide, by decide, by decide⟩
  · intro s
    have hd : ("." ++ s).data = '.' :: s.data := by
      rw [String.data_append]
      rfl
    have h1 : hasPfx ("." ++ s) "." = true := by
      simp [hasPfx, hd, List.isPrefixOf]
    simp [Rule.type, h1]
  · intro s
    have hd : ("#" ++ s).data = '#' :: s.data := by
      rw [String.data_append]
      rfl
    have h1 : hasPfx ("#" ++ s) "#" = true := by
      simp [hasPfx, hd, List.isPrefixOf]
    have h2 : hasPfx ("#" ++ s) "." = false := by
      simp [hasPfx, hd, List.isPrefixOf]
    simp [Rule.type, h1, h2]
  · intro r h1 h2
    simp [Rule.type, h1, h2]

/-- C9, witness: the tag conjunct applied to `div`. -/
theorem C9_witness : Rule.type "div" = "tag" :=
  C9_theorem.2.2.1 "div" (by decide) (by decide)

/-- C10: a block announced by several whitespace-separated Value tokens is
flushed by Rules at BlockStart as one entry joining the fragments with one
blank (`div p \x7b \x7d` lists the single rule `div p`), while the parser
stores one map entry per fragment (`div` and `p`); and Rules of a token
sequence without any BlockStart token is the empty list, never an error. -/
theorem C10_theorem :
    Rules (Tokenize "div p \x7b \x7d") = ["div p"] ∧
      Unmarshal "div p \x7b \x7d" = ([("div", []), ("p", [])], none) ∧
      ∀ l : List TokenEntry, (∀ t ∈ l, t.typ ≠ .tokenBlockStart) → Rules l = [] := by
  refine ⟨by decide, by decide, ?_⟩
  intro l h
  exact rulesLoop_no_blockStart l ⟨"", [], [], .tokenFirstToken⟩ h

/-- C10, witness: the last conjunct applied to the one-token list `a`. -/
theorem C10_witness : Rules [⟨"a", 1⟩] = [] :=
  C10_theorem.2.2 [⟨"a", 1⟩] (by decide)
